import Mathlib

/-!
Verification development for the `poor-mans-search-engine` repository.

The repository implements ranked full-text retrieval twice:
* `src/lib.rs` — an in-memory inverted index (`Searcher`) scored with Okapi BM25;
* `src/main.rs` — a persisted inverted index (`ScoredIndexSearch`) that stores
  per-term TF weights in an external sorted-set store (Redis) and scores
  queries with classic TF-IDF, aggregated by a weighted set union.

The shallow embedding below translates those two files.  Hash maps are
modelled as association lists (`List (String × α)`) -- iteration order is
irrelevant to every property proved here -- and the `f32` arithmetic of the
source is modelled as exact arithmetic (`ℚ` where only field operations
occur, `ℝ` where logarithms occur).
-/

open scoped Classical

set_option linter.unusedVariables false

namespace PMSE

/-! ## Association-list primitives (model of `std::collections::HashMap`) -/

/-- Lookup in an association list; models `HashMap::get`. -/
def lookupA {α : Type} : List (String × α) → String → Option α
  | [], _ => none
  | (i, v) :: rest, d => if i = d then some v else lookupA rest d

/-- Model of `doc_index.entry(doc_id).and_modify(|x| *x += 1).or_insert(1)`:
increment the count stored under `d`, inserting `1` if `d` is absent. -/
def bump : List (String × Nat) → String → List (String × Nat)
  | [], d => [(d, 1)]
  | (i, c) :: rest, d => if i = d then (i, c + 1) :: rest else (i, c) :: bump rest d

/-- Model of `HashMap::insert`: replace the value under `d` if present,
otherwise add the binding. -/
def insertDoc {α : Type} : List (String × α) → String → α → List (String × α)
  | [], d, v => [(d, v)]
  | (i, c) :: rest, d, v => if i = d then (i, v) :: rest else (i, c) :: insertDoc rest d v

/-! ## Normalizer of `src/lib.rs` (`normalize_string`) -/

/-- The apostrophe character (written by code point to keep the file plain). -/
def aposChar : Char := Char.ofNat 39

/-- Characters kept by the in-memory variant's regex `[^a-z0-9 ]` replacement:
lowercase ASCII letters, ASCII digits, and the space. -/
def allowedMem (c : Char) : Bool :=
  (('a' ≤ c && c ≤ 'z') || ('0' ≤ c && c ≤ '9')) || c = ' '

/-- Split a character list on spaces, dropping empty fragments; models
Rust's `split_whitespace` on a string whose only whitespace is `' '`
(after the regex replacement every whitespace character has become `' '`).
`acc` holds the current word, reversed. -/
def wordsAux : List Char → List Char → List (List Char)
  | [], acc => if acc = [] then [] else [acc.reverse]
  | c :: cs, acc =>
      if c = ' ' then
        if acc = [] then wordsAux cs [] else acc.reverse :: wordsAux cs []
      else wordsAux cs (c :: acc)

/-- Split on spaces, dropping empties. -/
def words (l : List Char) : List (List Char) := wordsAux l []

/-- Modelled from the spec: the in-memory variant's stop-word list is loaded
from the external `stop_words` crate (`stop_words::get(LANGUAGE::English)`),
whose exact contents are not part of this repository.  The repository's own
unit test (`test_normalize_string`: `"Nice, hello world! I like 42."`
normalizes to `"nice 42"`) pins that the list contains `hello`, `world`,
`i` and `like`, and contains neither `nice` nor `42`; we model exactly that
pinned sublist.  Every theorem below about the in-memory index except the
idempotence claim is independent of the concrete contents of this list. -/
def stopWordsEng : List String := ["hello", "world", "i", "like"]

/-- Lowercase then replace every character outside `[a-z0-9 ]` by a space;
models `non_words_re.replace_all(&s.to_lowercase(), " ")`. -/
def cleanMem (s : String) : List Char :=
  (s.toList.map Char.toLower).map (fun c => if allowedMem c then c else ' ')

/-- The term sequence produced by the in-memory normalizer before joining:
split on whitespace and drop stop words. -/
def normalizeTermsMem (s : String) : List String :=
  ((words (cleanMem s)).map (fun l => String.mk l)).filter (fun w => ¬ w ∈ stopWordsEng)

/-- Joining a list of strings with single spaces; models Rust's
`join(" ")`.  Defined through `List.intercalate` on the character lists so
that the string-level function is transparent to list-level reasoning. -/
def joinSpace (l : List String) : String :=
  String.mk (List.intercalate [' '] (l.map String.toList))

/-- Model of `normalize_string` of `src/lib.rs`: the filtered words joined
with single spaces (`.collect::<Vec<&str>>().join(" ")`). -/
def normalize_string (s : String) : String :=
  joinSpace (normalizeTermsMem s)

/-! ## The in-memory `Searcher` of `src/lib.rs` -/

/-- Model of `struct Document`; `nterms` is `i32` in the source but can
never be negative (it counts terms), so we use `Nat`. -/
structure Document where
  content : String
  nterms : Nat
deriving Repr, DecidableEq

/-- Model of `struct Searcher`.  `index` is the inverted index
(term → doc_id → count), `docs` the document table, `avdl` the running
average document length.  `avdl`, `k1` and `b` are `f32` in the source,
modelled as exact rationals. -/
structure Searcher where
  index : String → List (String × Nat)
  docs : List (String × Document)
  avdl : ℚ
  k1 : ℚ
  b : ℚ

/-- Model of `Searcher::new`. -/
def Searcher.new : Searcher :=
  { index := fun _ => [], docs := [], avdl := 0, k1 := 12/10, b := 3/4 }

/-- The term occurrences a document contributes, as the callers of
`normalize_string` see them: `normalize_string(content).split_whitespace()`. -/
def termsOf (content : String) : List String :=
  (words (normalize_string content).toList).map (fun l => String.mk l)

/-- The indexing loop of `add_document`: for every term occurrence, bump
the count stored for `docId` in that term's posting list. -/
def foldIndex (terms : List String) (docId : String)
    (ix : String → List (String × Nat)) : String → List (String × Nat) :=
  terms.foldl (fun a t => fun u => if u = t then bump (a u) docId else a u) ix

/-- Model of `Searcher::add_document`.  `nterms` is the number of term
occurrences surviving normalization; the new `avdl` is
`(avdl * (docs.len() - 1) + nterms) / docs.len()` with `docs.len()` taken
after the insertion (the `- 1` is `usize` subtraction, safe because the
length is at least 1 after inserting). -/
def Searcher.add_document (s : Searcher) (docId content : String) : Searcher :=
  let terms := termsOf content
  let docs' := insertDoc s.docs docId ⟨content, terms.length⟩
  { s with
    index := foldIndex terms docId s.index
    docs := docs'
    avdl := (s.avdl * ((docs'.length - 1 : Nat) : ℚ) + (terms.length : ℚ))
              / (docs'.length : ℚ) }

/-- Model of `Searcher::idf` (the smoothed IDF variant):
`ln((N - n_t + 0.5) / (n_t + 0.5) + 1)` where `N` is the number of stored
documents and `n_t` the number of documents whose posting list contains the
term (`0` when the term is unindexed, since then `index t = []`). -/
noncomputable def Searcher.idf (s : Searcher) (term : String) : ℝ :=
  let docsCount : ℝ := (s.docs.length : ℝ)
  let docsWithTermCount : ℝ := ((s.index term).length : ℝ)
  Real.log ((docsCount - docsWithTermCount + 1/2) / (docsWithTermCount + 1/2) + 1)

/-- The per-document BM25 scoring expression of `Searcher::bm25`
(lines 109–115 of `src/lib.rs`):
`idf * (tf * (k1 + 1)) / (k1 * ((1 - b) + b * (dl / avdl)))`. -/
noncomputable def Searcher.bm25Score (s : Searcher) (term : String) (tf dl : Nat) : ℝ :=
  let numerator : ℝ := (tf : ℝ) * ((s.k1 : ℝ) + 1)
  let denominator : ℝ := (s.k1 : ℝ) * ((1 - (s.b : ℝ)) + (s.b : ℝ) * ((dl : ℝ) / ((s.avdl : ℚ) : ℝ)))
  s.idf term * numerator / denominator

/-- Model of `Searcher::bm25`: one `(doc_id, score)` pair per posting of the
term.  An unindexed term has `index term = []` (the `None` branch of the
source), so the result is empty and the scoring expression — including its
division by `avdl` — is never evaluated.  The `self.docs[doc_id]` lookup of
the source panics when the doc is absent; that case is unreachable for
states built by `add_document` (every posting's doc is stored), and the
model supplies `nterms = 0` there. -/
noncomputable def Searcher.bm25 (s : Searcher) (term : String) : List (String × ℝ) :=
  (s.index term).map (fun p =>
    (p.1, s.bm25Score term p.2 (((lookupA s.docs p.1).map Document.nterms).getD 0)))

/-- Model of the score-merging step of `Searcher::search`:
`acc.entry(doc_id).or_insert(0.0); *total_score += score`. -/
noncomputable def addScore : List (String × ℝ) → String → ℝ → List (String × ℝ)
  | [], d, sc => [(d, sc)]
  | (i, v) :: rest, d, sc =>
      if i = d then (i, v + sc) :: rest else (i, v) :: addScore rest d sc

/-- Model of `Searcher::search`: normalize the query, score each term with
`bm25`, and fold the per-term score maps together by summing per doc_id. -/
noncomputable def Searcher.search (s : Searcher) (query : String) : List (String × ℝ) :=
  (termsOf query).foldl
    (fun acc term => (s.bm25 term).foldl (fun a p => addScore a p.1 p.2) acc) []

/-- Reachable in-memory states: `Searcher::new` followed by any sequence of
`add_document` calls with pairwise-distinct doc ids (each added id is not
already stored, which is exactly pairwise distinctness of the added ids). -/
inductive Reach : Searcher → Prop
  | new : Reach Searcher.new
  | step {s : Searcher} (docId content : String)
      (h : lookupA s.docs docId = none) (hr : Reach s) :
      Reach (s.add_document docId content)

/-! ## Normalizer of `src/main.rs` (the persisted `ScoredIndexSearch`) -/

/-- Characters kept by the persisted variant's regex `[^a-z0-9' ]`
replacement: additionally the apostrophe. -/
def allowedP (c : Char) : Bool :=
  ((('a' ≤ c && c ≤ 'z') || ('0' ≤ c && c ≤ '9')) || c = ' ') || c = aposChar

/-- Model of `word.trim_matches('\x27')`: strip every leading and trailing
apostrophe of a token. -/
def trimApos (l : List Char) : List Char :=
  ((l.dropWhile (fun c => c = aposChar)).reverse.dropWhile (fun c => c = aposChar)).reverse

/-- The `STOP_WORDS` set embedded in `src/main.rs`, transcribed verbatim. -/
def STOP_WORDS_P : List String :=
  ["a", "able", "about", "across", "after", "all", "almost", "also", "am",
   "among", "an", "and", "any", "are", "as", "at", "be", "because", "been",
   "but", "by", "can", "cannot", "could", "dear", "did", "do", "does",
   "either", "else", "ever", "every", "for", "from", "get", "got", "had",
   "has", "have", "he", "her", "hers", "him", "his", "how", "however", "i",
   "if", "in", "into", "is", "it", "its", "just", "least", "let", "like",
   "likely", "may", "me", "might", "most", "must", "my", "neither", "no",
   "nor", "not", "of", "off", "often", "on", "only", "or", "other", "our",
   "own", "rather", "said", "say", "says", "she", "should", "since", "so",
   "some", "than", "that", "the", "their", "them", "then", "there", "these",
   "they", "this", "tis", "to", "too", "twas", "us", "wants", "was", "we",
   "were", "what", "when", "where", "which", "while", "who", "whom", "why",
   "will", "with", "would", "yet", "you", "your"]

/-- Lowercase then replace every character outside `[a-z0-9' ]` by a space;
models `NON_WORDS.replace_all(&content.to_lowercase(), " ")`. -/
def cleanP (s : String) : List Char :=
  (s.toList.map Char.toLower).map (fun c => if allowedP c then c else ' ')

/-- The surviving word list of `ScoredIndexSearch::get_index_keys`: split on
whitespace, strip apostrophes, drop stop words and tokens of length ≤ 1. -/
def normalizeWordsP (s : String) : List String :=
  ((words (cleanP s)).map (fun w => String.mk (trimApos w))).filter
    (fun w => ¬ w ∈ STOP_WORDS_P ∧ 1 < w.length)

/-- Model of `*counts.entry(word).or_insert(0.0) += 1.0`: the counts are
accumulated as `f32` in the source, modelled as exact reals. -/
noncomputable def bumpR : List (String × ℝ) → String → List (String × ℝ)
  | [], d => [(d, 1)]
  | (i, c) :: rest, d => if i = d then (i, c + 1) :: rest else (i, c) :: bumpR rest d

/-- The occurrence-count table of `get_index_keys` (`add = true` branch). -/
noncomputable def countsOf (ws : List String) : List (String × ℝ) :=
  ws.foldl bumpR []

/-- Model of `HashMap::from_iter` (`add = false` branch): later duplicates
overwrite earlier ones, so the key set is the distinct-word set. -/
def fromIter (l : List (String × ℝ)) : List (String × ℝ) :=
  l.foldl (fun m p => insertDoc m p.1 p.2) []

/-- Model of `ScoredIndexSearch::get_index_keys`.  For `add = false` every
word maps to `0.0`; for `add = true` each distinct word maps to its
occurrence count divided by the total number of surviving occurrences
(`wordcount = counts.values().sum()`). -/
noncomputable def getIndexKeys (content : String) (add : Bool) : List (String × ℝ) :=
  if add = false then fromIter ((normalizeWordsP content).map (fun w => (w, 0)))
  else
    (countsOf (normalizeWordsP content)).map
      (fun p => (p.1, p.2 / ((countsOf (normalizeWordsP content)).map Prod.snd).sum))

/-! ## The external sorted-set store (Redis) and the persisted search -/

/-- Model of the slice of Redis state the persisted index uses: plain sets
(for the `indexed:` membership set) and sorted sets (member → score).  A
key that maps to `[]` is absent. -/
structure Redis where
  sets : String → List String
  zsets : String → List (String × ℝ)

/-- Model of `SCARD`: the cardinality of a set key. -/
def Redis.scard (st : Redis) (k : String) : Nat := (st.sets k).length

/-- Model of `ZCARD`: the cardinality of a sorted-set key. -/
def Redis.zcard (st : Redis) (k : String) : Nat := (st.zsets k).length

/-- The IDF computation of `ScoredIndexSearch::search` (lines 114–123 of
`src/main.rs`): `0.0` when the document frequency is `0.0`, otherwise
`(total_docs / count).log2().max(0.0)`. -/
noncomputable def idfOf (totalDocs cnt : ℝ) : ℝ :=
  if cnt = 0 then 0 else max (Real.logb 2 (totalDocs / cnt)) 0

/-- The prefixed query keys of `ScoredIndexSearch::search`: the keys of
`get_index_keys(query, false)`, each prefixed with `self.prefix`. -/
noncomputable def queryKeysP (pre q : String) : List String :=
  (getIndexKeys q false).map (fun p => pre ++ p.1)

/-- The query keys paired with their IDFs (the `keys`/`idfs` zip of the
source): `total_docs` is `SCARD prefix ++ "indexed:"`, the per-key document
frequency is `ZCARD key`.  The source's `unwrap_or(1)` on the SCARD reply
and `unwrap` on the ZCARD pipeline only concern store faults; this model
reads a fault-free store (the one fault the claims depend on is injected
at the later range read, see `searchP`). -/
noncomputable def queryIdfs (st : Redis) (pre q : String) : List (String × ℝ) :=
  let totalDocs : ℝ := (st.scard (pre ++ "indexed:") : ℝ)
  (queryKeysP pre q).map (fun k => (k, idfOf totalDocs ((st.zcard k : ℝ))))

/-- The ZUNIONSTORE weight list: keys whose IDF is strictly positive. -/
noncomputable def weightsOf (st : Redis) (pre q : String) : List (String × ℝ) :=
  (queryIdfs st pre q).filter (fun p => 0 < p.2)

/-- Model of `ZUNIONSTORE dest [(key, weight), …]` (default SUM aggregate):
each member of any input key appears once, with score the weighted sum of
its scores over the keys that contain it. -/
noncomputable def zunionW (st : Redis) (ws : List (String × ℝ)) : List (String × ℝ) :=
  let members := ((ws.map (fun p => (st.zsets p.1).map Prod.fst)).flatten).dedup
  members.map (fun m =>
    (m, (ws.map (fun p => p.2 * ((lookupA (st.zsets p.1) m).getD 0))).sum))

/-- Descending insertion used to model the ZREVRANGE ordering: by score
descending, ties by member descending (Redis orders ties lexicographically
and ZREVRANGE walks that order backwards). -/
noncomputable def insDesc (x : String × ℝ) : List (String × ℝ) → List (String × ℝ)
  | [] => [x]
  | y :: rest =>
      if y.2 < x.2 ∨ (y.2 = x.2 ∧ y.1 < x.1) then x :: y :: rest
      else y :: insDesc x rest

/-- The descending order ZREVRANGE reads a sorted set in. -/
noncomputable def sortDesc (l : List (String × ℝ)) : List (String × ℝ) :=
  l.foldr insDesc []

/-- Model of `i as isize` for a `usize`-valued expression already reduced
modulo `2 ^ 64`: values at or above `2 ^ 63` reinterpret as negatives. -/
def toIsize (n : Nat) : ℤ :=
  if n % 2 ^ 64 < 2 ^ 63 then ((n % 2 ^ 64 : Nat) : ℤ) else ((n % 2 ^ 64 : Nat) : ℤ) - 2 ^ 64

/-- Model of `ZREVRANGE key start stop WITHSCORES`: resolve negative
indices from the end, clamp, and return the inclusive slice of the
descending order. -/
noncomputable def zrevrangeWS (l : List (String × ℝ)) (start stop : ℤ) :
    List (String × ℝ) :=
  let n : ℤ := l.length
  let s := max (if start < 0 then n + start else start) 0
  let e := min (if stop < 0 then n + stop else stop) (n - 1)
  if s ≤ e then ((sortDesc l).drop s.toNat).take (e - s + 1).toNat else []

/-- Outcome of one persisted `search` call: `result = none` models the
`unwrap` panic on a store fault, and `store` is the final external-store
state (observable whether the ephemeral key was deleted). -/
structure POutcome where
  result : Option (List (String × ℝ) × Nat)
  store : Redis

/-- Model of `ScoredIndexSearch::search` (lines 88–149 of `src/main.rs`).

`pre` is the `self.prefix` field, `tempSuffix` the random suffix drawn for
the ephemeral key, and `rangeFault` injects an external-store fault at the
`zrevrange_withscores` call — the one call between the union and the
deletion whose result the source unwraps (`.unwrap()`), so a fault there
panics.  The `zunionstore_weights` call uses `unwrap_or(0)` and the early
returns happen before any store mutation, so the fault-free and faulting
executions agree up to the union.  The slice bounds model the release-mode
(wrapping) evaluation of `offset as isize` and `(offset + count - 1) as
isize`; a debug build would panic on the underflow at `count = offset = 0`
instead. -/
noncomputable def searchP (st : Redis) (pre q : String) (offset count : Nat)
    (tempSuffix : String) (rangeFault : Bool) : POutcome :=
  let keys := queryKeysP pre q
  if keys.isEmpty then ⟨some ([], 0), st⟩
  else
    let ws := weightsOf st pre q
    if ws.isEmpty then ⟨some ([], 0), st⟩
    else
      let tempKey := pre ++ "temp:" ++ tempSuffix
      let uz := zunionW st ws
      let known := uz.length
      let st1 : Redis := { st with zsets := fun k => if k = tempKey then uz else st.zsets k }
      if rangeFault then ⟨none, st1⟩
      else
        let start := toIsize (offset % 2 ^ 64)
        let stop := toIsize ((offset + count + (2 ^ 64 - 1)) % 2 ^ 64)
        let ids := zrevrangeWS uz start stop
        let st2 : Redis := { st1 with zsets := fun k => if k = tempKey then [] else st1.zsets k }
        ⟨some (ids, known), st2⟩

/-! ## Concrete states used by witnesses and counterexamples -/

/-- One document, two terms. -/
def s1mem : Searcher := Searcher.new.add_document "1" "nice moon"

/-- Two documents with distinct ids. -/
def s2mem : Searcher := s1mem.add_document "2" "nice nice pluto"

/-- A document every term of which is dropped by normalization. -/
def s0mem : Searcher := Searcher.new.add_document "1" ""

/-- A store with two indexed documents and one posting for `hello`:
document frequency 1 out of 2 documents, so `idf = log2 2 = 1 > 0`. -/
noncomputable def st10 : Redis :=
  { sets := fun k => if k = "p:indexed:" then ["1", "2"] else []
    zsets := fun k => if k = "p:hello" then [("1", 1/2)] else [] }

/-- The empty store. -/
def stEmpty : Redis := { sets := fun _ => [], zsets := fun _ => [] }

/-! ## Association-list lemmas -/

theorem lookupA_eq_none_iff {α : Type} (l : List (String × α)) (d : String) :
    lookupA l d = none ↔ ¬ d ∈ l.map Prod.fst := by
  induction l with
  | nil => simp [lookupA]
  | cons p rest ih =>
      obtain ⟨i, v⟩ := p
      by_cases h : i = d <;> simp [lookupA, h, ih, Ne.symm]

theorem mem_of_lookupA {α : Type} {l : List (String × α)} {d : String} {v : α}
    (h : lookupA l d = some v) : (d, v) ∈ l := by
  induction l with
  | nil => simp [lookupA] at h
  | cons p rest ih =>
      obtain ⟨i, w⟩ := p
      by_cases hid : i = d
      · subst hid; simp [lookupA] at h; simp [h]
      · simp [lookupA, hid] at h
        exact List.mem_cons_of_mem _ (ih h)

theorem mem_keys_of_lookupA {α : Type} {l : List (String × α)} {d : String} {v : α}
    (h : lookupA l d = some v) : d ∈ l.map Prod.fst := by
  have := mem_of_lookupA h
  exact List.mem_map.mpr ⟨(d, v), this, rfl⟩

theorem lookupA_isSome_of_mem_keys {α : Type} {l : List (String × α)} {d : String}
    (h : d ∈ l.map Prod.fst) : (lookupA l d).isSome := by
  cases hl : lookupA l d with
  | none => exact absurd h ((lookupA_eq_none_iff l d).mp hl)
  | some v => rfl

theorem lookupA_of_mem_nodup {α : Type} {l : List (String × α)} {d : String} {v : α}
    (hnd : (l.map Prod.fst).Nodup) (h : (d, v) ∈ l) : lookupA l d = some v := by
  induction l with
  | nil => simp at h
  | cons p rest ih =>
      obtain ⟨i, w⟩ := p
      simp only [List.map_cons, List.nodup_cons] at hnd
      rcases List.mem_cons.mp h with h1 | h1
      · obtain ⟨rfl, rfl⟩ := Prod.mk.injEq .. ▸ h1
        simp [lookupA]
      · have hne : i ≠ d := by
          rintro rfl
          exact hnd.1 (List.mem_map.mpr ⟨(i, v), h1, rfl⟩)
        simp [lookupA, hne, ih hnd.2 h1]

theorem insertDoc_eq_append {α : Type} {l : List (String × α)} {d : String} (v : α)
    (h : lookupA l d = none) : insertDoc l d v = l ++ [(d, v)] := by
  induction l with
  | nil => simp [insertDoc]
  | cons p rest ih =>
      obtain ⟨i, w⟩ := p
      by_cases hid : i = d
      · simp [lookupA, hid] at h
      · simp [lookupA, hid] at h
        simp [insertDoc, hid, ih h]

theorem lookupA_append_left {α : Type} {l l2 : List (String × α)} {d : String} {v : α}
    (h : lookupA l d = some v) : lookupA (l ++ l2) d = some v := by
  induction l with
  | nil => simp [lookupA] at h
  | cons p rest ih =>
      obtain ⟨i, w⟩ := p
      by_cases hid : i = d <;> simp_all [lookupA]

theorem lookupA_append_right {α : Type} {l l2 : List (String × α)} {d : String}
    (h : lookupA l d = none) : lookupA (l ++ l2) d = lookupA l2 d := by
  induction l with
  | nil => simp [lookupA]
  | cons p rest ih =>
      obtain ⟨i, w⟩ := p
      by_cases hid : i = d <;> simp_all [lookupA]

theorem lookupA_bump_self (l : List (String × Nat)) (d : String) :
    lookupA (bump l d) d = some ((lookupA l d).getD 0 + 1) := by
  induction l with
  | nil => simp [bump, lookupA]
  | cons p rest ih =>
      obtain ⟨i, c⟩ := p
      by_cases hid : i = d <;> simp [bump, lookupA, hid, ih]

theorem lookupA_bump_ne (l : List (String × Nat)) {d u : String} (h : u ≠ d) :
    lookupA (bump l d) u = lookupA l u := by
  induction l with
  | nil => simp [bump, lookupA, Ne.symm h]
  | cons p rest ih =>
      obtain ⟨i, c⟩ := p
      by_cases hid : i = d
      · subst hid; simp [bump, lookupA, Ne.symm h]
      · by_cases hiu : i = u <;> simp [bump, lookupA, hid, hiu, h, ih]

theorem keys_bump (l : List (String × Nat)) (d : String) :
    (bump l d).map Prod.fst = l.map Prod.fst ∨
      (¬ d ∈ l.map Prod.fst ∧ (bump l d).map Prod.fst = l.map Prod.fst ++ [d]) := by
  induction l with
  | nil => right; simp [bump]
  | cons p rest ih =>
      obtain ⟨i, c⟩ := p
      by_cases hid : i = d
      · left; simp [bump, hid]
      · rcases ih with h | ⟨h1, h2⟩
        · left; simp [bump, hid, h]
        · right
          refine ⟨?_, by simp [bump, hid, h2]⟩
          simp [hid, h1, Ne.symm]

/-! ## Lemmas about the indexing fold of `add_document` -/

theorem foldIndex_nil (docId : String) (ix : String → List (String × Nat)) :
    foldIndex [] docId ix = ix := rfl

theorem foldIndex_cons (a : String) (terms : List String) (docId : String)
    (ix : String → List (String × Nat)) :
    foldIndex (a :: terms) docId ix =
      foldIndex terms docId (fun u => if u = a then bump (ix u) docId else ix u) := rfl

theorem foldIndex_lookup_ne (terms : List String) (docId : String)
    (ix : String → List (String × Nat)) (t u : String) (h : u ≠ docId) :
    lookupA (foldIndex terms docId ix t) u = lookupA (ix t) u := by
  induction terms generalizing ix with
  | nil => rfl
  | cons a rest ih =>
      rw [foldIndex_cons, ih]
      by_cases hta : t = a
      · simp [hta, lookupA_bump_ne _ h]
      · simp [hta]

theorem foldIndex_lookup_self (terms : List String) (docId : String)
    (ix : String → List (String × Nat)) (t : String) :
    lookupA (foldIndex terms docId ix t) docId =
      if terms.count t = 0 then lookupA (ix t) docId
      else some ((lookupA (ix t) docId).getD 0 + terms.count t) := by
  induction terms generalizing ix with
  | nil => simp [foldIndex_nil]
  | cons a rest ih =>
      rw [foldIndex_cons, ih]
      by_cases hta : t = a
      · subst hta
        have hb := lookupA_bump_self (ix t) docId
        have hc : (t :: rest).count t = rest.count t + 1 := by
          simp [List.count_cons]
        by_cases h0 : rest.count t = 0 <;> (simp [h0, hc, hb]; try omega)
      · have hc : (a :: rest).count t = rest.count t := by
          simp [List.count_cons, hta]
        simp [hta, hc]

theorem foldIndex_keys (terms : List String) (docId : String)
    (ix : String → List (String × Nat)) (t : String) :
    (foldIndex terms docId ix t).map Prod.fst = (ix t).map Prod.fst ∨
      (¬ docId ∈ (ix t).map Prod.fst ∧
        (foldIndex terms docId ix t).map Prod.fst = (ix t).map Prod.fst ++ [docId]) := by
  induction terms generalizing ix with
  | nil => left; rfl
  | cons a rest ih =>
      rw [foldIndex_cons]
      by_cases hta : t = a
      · subst hta
        rcases ih (fun u => if u = t then bump (ix u) docId else ix u) with h | ⟨h1, h2⟩
        · rcases keys_bump (ix t) docId with hb | ⟨hb1, hb2⟩
          · left; rw [h]; simpa using hb
          · right
            refine ⟨hb1, ?_⟩
            rw [h]; simpa using hb2
        · exfalso
          simp only [if_pos rfl] at h1
          exact h1 (mem_keys_of_lookupA (lookupA_bump_self (ix t) docId))
      · rcases ih (fun u => if u = a then bump (ix u) docId else ix u) with h | ⟨h1, h2⟩
        · left; rw [h]; simp [hta]
        · right
          simp only [if_neg hta] at h1 h2
          exact ⟨h1, by rw [h2]⟩

/-! ## The reachable-state invariant of the in-memory `Searcher` -/

/-- Invariant of every state built by `Searcher::new` followed by
`add_document` calls with pairwise-distinct doc ids. -/
structure Inv (s : Searcher) : Prop where
  k1_eq : s.k1 = 12/10
  b_eq : s.b = 3/4
  avdl_mul : s.avdl * (s.docs.length : ℚ) = (s.docs.map (fun p => (p.2.nterms : ℚ))).sum
  avdl_nonneg : 0 ≤ s.avdl
  docs_nodup : (s.docs.map Prod.fst).Nodup
  post : ∀ t d c, lookupA (s.index t) d = some c →
    1 ≤ c ∧ ∃ doc, lookupA s.docs d = some doc ∧ 1 ≤ doc.nterms
  post_nodup : ∀ t, ((s.index t).map Prod.fst).Nodup
  post_sub : ∀ t, ∀ d ∈ (s.index t).map Prod.fst, d ∈ s.docs.map Prod.fst

theorem reach_inv {s : Searcher} (h : Reach s) : Inv s := by
  induction h with
  | new =>
      refine ⟨rfl, rfl, by simp [Searcher.new], le_refl _, by simp [Searcher.new],
        ?_, by simp [Searcher.new], by simp [Searcher.new]⟩
      intro t d c hl
      simp [Searcher.new, lookupA] at hl
  | step docId content hfresh hr ih =>
      rename_i s
      have hfreshk : ¬ docId ∈ s.docs.map Prod.fst := (lookupA_eq_none_iff _ _).mp hfresh
      set terms := termsOf content with hterms
      set d0 : Document := ⟨content, terms.length⟩ with hd0
      have hdocs : (s.add_document docId content).docs = s.docs ++ [(docId, d0)] := by
        simp [Searcher.add_document, insertDoc_eq_append _ hfresh, hd0]
      have hindex : (s.add_document docId content).index = foldIndex terms docId s.index := rfl
      have hlen : (s.add_document docId content).docs.length = s.docs.length + 1 := by
        simp [hdocs]
      have havdl : (s.add_document docId content).avdl =
          (s.avdl * (s.docs.length : ℚ) + (terms.length : ℚ)) / ((s.docs.length : ℚ) + 1) := by
        simp [Searcher.add_document, insertDoc_eq_append _ hfresh, hd0]
      have hlenpos : (0 : ℚ) < (s.docs.length : ℚ) + 1 := by positivity
      refine ⟨ih.k1_eq, ih.b_eq, ?_, ?_, ?_, ?_, ?_, ?_⟩
      · rw [havdl, hdocs]
        simp only [List.length_append, List.length_cons, List.length_nil]
        push_cast
        rw [div_mul_eq_mul_div, div_eq_iff (by positivity)]
        simp only [List.map_append, List.sum_append, List.map_cons, List.map_nil,
          List.sum_cons, List.sum_nil]
        rw [← ih.avdl_mul]
        ring
      · rw [havdl]
        have h1 : (0 : ℚ) ≤ s.avdl * (s.docs.length : ℚ) + (terms.length : ℚ) := by
          have := ih.avdl_nonneg
          positivity
        positivity
      · rw [hdocs]
        simp only [List.map_append, List.map_cons, List.map_nil]
        rw [List.nodup_append]
        exact ⟨ih.docs_nodup, List.nodup_singleton _, by simpa using hfreshk⟩
      · intro t d c hl
        rw [hindex] at hl
        by_cases hdd : d = docId
        · subst hdd
          have hnone : lookupA (s.index t) d = none := by
            rw [lookupA_eq_none_iff]
            intro hm
            exact hfreshk (ih.post_sub t d hm)
          rw [foldIndex_lookup_self, hnone] at hl
          by_cases h0 : terms.count t = 0
          · simp [h0] at hl
          · simp [h0] at hl
            have hcpos : 1 ≤ terms.count t := Nat.one_le_iff_ne_zero.mpr h0
            have htm : t ∈ terms := by
              by_contra hnm
              exact h0 (List.count_eq_zero.mpr hnm)
            have hlenpos' : 1 ≤ terms.length :=
              List.length_pos.mpr (List.ne_nil_of_mem htm)
            refine ⟨by omega, d0, ?_, by simpa [hd0] using hlenpos'⟩
            rw [hdocs, lookupA_append_right hfresh]
            simp [lookupA]
        · rw [foldIndex_lookup_ne _ _ _ _ _ hdd] at hl
          obtain ⟨hc, doc, hdoc, hn⟩ := ih.post t d c hl
          exact ⟨hc, doc, by rw [hdocs]; exact lookupA_append_left hdoc, hn⟩
      · intro t
        rw [hindex]
        rcases foldIndex_keys terms docId s.index t with hk | ⟨hk1, hk2⟩
        · rw [hk]; exact ih.post_nodup t
        · rw [hk2, List.nodup_append]
          exact ⟨ih.post_nodup t, List.nodup_singleton _, by simpa using hk1⟩
      · intro t d hd
        rw [hindex] at hd
        rw [hdocs]
        simp only [List.map_append, List.map_cons, List.map_nil]
        rcases foldIndex_keys terms docId s.index t with hk | ⟨hk1, hk2⟩
        · rw [hk] at hd
          exact List.mem_append_left _ (ih.post_sub t d hd)
        · rw [hk2] at hd
          rcases List.mem_append.mp hd with hd | hd
          · exact List.mem_append_left _ (ih.post_sub t d hd)
          · exact List.mem_append_right _ (by simpa using hd)

/-- The number of documents containing a term never exceeds the number of
stored documents. -/
theorem index_card_le {s : Searcher} (hi : Inv s) (t : String) :
    (s.index t).length ≤ s.docs.length := by
  have h1 : ((s.index t).map Prod.fst).Nodup := hi.post_nodup t
  have h2 : ∀ d ∈ (s.index t).map Prod.fst, d ∈ s.docs.map Prod.fst := hi.post_sub t
  calc (s.index t).length = ((s.index t).map Prod.fst).length := by simp
    _ = ((s.index t).map Prod.fst).toFinset.card := (List.toFinset_card_of_nodup h1).symm
    _ ≤ (s.docs.map Prod.fst).toFinset.card := by
        apply Finset.card_le_card
        intro x hx
        simp only [List.mem_toFinset] at *
        exact h2 x hx
    _ ≤ (s.docs.map Prod.fst).length := List.toFinset_card_le _
    _ = s.docs.length := by simp

/-! ## Keys of merged score maps (for the search theorems) -/

theorem addScore_keys_mem {acc : List (String × ℝ)} {d u : String} {sc : ℝ}
    (h : u ∈ (addScore acc d sc).map Prod.fst) :
    u ∈ acc.map Prod.fst ∨ u = d := by
  induction acc with
  | nil =>
      simp only [addScore, List.map_cons, List.map_nil, List.mem_singleton] at h
      right; exact h
  | cons p rest ih =>
      obtain ⟨i, v⟩ := p
      by_cases hid : i = d
      · simp only [addScore, if_pos hid, List.map_cons, List.mem_cons] at h
        left
        simp only [List.map_cons, List.mem_cons]
        exact h
      · simp only [addScore, if_neg hid, List.map_cons, List.mem_cons] at h
        rcases h with h | h
        · left; simp [h]
        · rcases ih h with h1 | h1
          · left; simp [h1]
          · right; exact h1

theorem foldScores_keys_mem {l acc : List (String × ℝ)} {u : String}
    (h : u ∈ ((l.foldl (fun a p => addScore a p.1 p.2) acc).map Prod.fst)) :
    u ∈ acc.map Prod.fst ∨ u ∈ l.map Prod.fst := by
  induction l generalizing acc with
  | nil => left; simpa using h
  | cons p rest ih =>
      simp only [List.foldl_cons] at h
      rcases ih h with h1 | h1
      · rcases addScore_keys_mem h1 with h2 | h2
        · left; exact h2
        · right; simp [h2]
      · right; simp [h1]

theorem bm25_keys (s : Searcher) (t : String) :
    (s.bm25 t).map Prod.fst = (s.index t).map Prod.fst := by
  simp [Searcher.bm25, List.map_map, Function.comp]

theorem searchFold_keys_mem (s : Searcher) (ts : List String)
    (acc : List (String × ℝ)) (u : String)
    (h : u ∈ ((ts.foldl
        (fun acc term => (s.bm25 term).foldl (fun a p => addScore a p.1 p.2) acc)
        acc).map Prod.fst)) :
    u ∈ acc.map Prod.fst ∨ ∃ t ∈ ts, u ∈ (s.index t).map Prod.fst := by
  induction ts generalizing acc with
  | nil => left; simpa using h
  | cons a rest ih =>
      simp only [List.foldl_cons] at h
      rcases ih _ h with h1 | ⟨t, ht, hd⟩
      · rcases foldScores_keys_mem h1 with h2 | h2
        · left; exact h2
        · right
          rw [bm25_keys] at h2
          exact ⟨a, by simp, h2⟩
      · right; exact ⟨t, by simp [ht], hd⟩

/-! ## Claim theorems for the in-memory index -/

/-- C1: for every sequence of `add_document` calls with pairwise-distinct
doc ids, after every call `avdl` equals the exact mean of the stored
documents' term counts — the incremental update
`(avdl * (n - 1) + term_count) / n` maintains the exact running mean
(floating-point arithmetic modelled as exact rational arithmetic). -/
theorem avdl_exact_mean (s : Searcher) (h : Reach s) (hpos : 0 < s.docs.length) :
    s.avdl = (s.docs.map (fun p => (p.2.nterms : ℚ))).sum / (s.docs.length : ℚ) := by
  have hi := reach_inv h
  have hne : ((s.docs.length : ℚ)) ≠ 0 := ne_of_gt (by exact_mod_cast hpos)
  rw [eq_div_iff hne]
  exact hi.avdl_mul

theorem avdl_exact_mean_witness :
    Reach s2mem ∧ 0 < s2mem.docs.length ∧
      s2mem.avdl = (s2mem.docs.map (fun p => (p.2.nterms : ℚ))).sum / (s2mem.docs.length : ℚ) := by
  have h1 : Reach s1mem := Reach.step "1" "nice moon" rfl Reach.new
  have hreach : Reach s2mem := Reach.step "2" "nice nice pluto" (by decide) h1
  exact ⟨hreach, by decide, avdl_exact_mean _ hreach (by decide)⟩

/-- C3: in every reachable state with `avdl = 0` (the empty index, or every
added document normalized to zero terms) the inverted index is empty, so
`bm25` returns the empty map for every term and `search` the empty map for
every query; in particular the scoring expression containing the division
by `avdl` is never evaluated, and no division fault can propagate. -/
theorem avdl_zero_safe (s : Searcher) (h : Reach s) (h0 : s.avdl = 0) :
    (∀ t, s.index t = []) ∧ (∀ t, s.bm25 t = []) ∧ (∀ q, s.search q = []) := by
  have hi := reach_inv h
  have hidx : ∀ t, s.index t = [] := by
    intro t
    cases hix : s.index t with
    | nil => rfl
    | cons p rest =>
        exfalso
        obtain ⟨i, c⟩ := p
        have hl : lookupA (s.index t) i = some c := by rw [hix]; simp [lookupA]
        obtain ⟨hc, doc, hdoc, hn⟩ := hi.post t i c hl
        have hmul := hi.avdl_mul
        rw [h0, zero_mul] at hmul
        have hmem : (i, doc) ∈ s.docs := mem_of_lookupA hdoc
        have hmem2 : ((doc.nterms : ℚ)) ∈ s.docs.map (fun p => (p.2.nterms : ℚ)) :=
          List.mem_map.mpr ⟨(i, doc), hmem, rfl⟩
        have hall : ∀ x ∈ s.docs.map (fun p => (p.2.nterms : ℚ)), 0 ≤ x := by
          intro x hx
          obtain ⟨p, _, rfl⟩ := List.mem_map.mp hx
          positivity
        have h1 := List.single_le_sum hall _ hmem2
        rw [← hmul] at h1
        have h2 : (1 : ℚ) ≤ (doc.nterms : ℚ) := by exact_mod_cast hn
        linarith
  refine ⟨hidx, fun t => by simp [Searcher.bm25, hidx t], fun q => ?_⟩
  show (termsOf q).foldl _ [] = []
  induction termsOf q with
  | nil => rfl
  | cons a rest ih =>
      rw [List.foldl_cons]
      have hb : s.bm25 a = [] := by simp [Searcher.bm25, hidx a]
      rw [hb]
      exact ih

theorem avdl_zero_safe_witness :
    Reach s0mem ∧ s0mem.avdl = 0 ∧
      ((∀ t, s0mem.index t = []) ∧ (∀ t, s0mem.bm25 t = []) ∧ (∀ q, s0mem.search q = [])) := by
  have hreach : Reach s0mem := Reach.step "1" "" rfl Reach.new
  have h0 : s0mem.avdl = 0 := by
    norm_num [s0mem, Searcher.add_document, Searcher.new, insertDoc,
      show (termsOf "").length = 0 from rfl]
  exact ⟨hreach, h0, avdl_zero_safe _ hreach h0⟩

/-- C2: every doc id in the map returned by `search` carries at least one
of the query's normalized terms in its posting list; a document matching no
query term is absent from the result rather than present with score 0. -/
theorem search_only_matching (s : Searcher) (h : Reach s) (q d : String) (sc : ℝ)
    (hl : lookupA (s.search q) d = some sc) :
    ∃ t ∈ termsOf q, (lookupA (s.index t) d).isSome := by
  have hmem : d ∈ (s.search q).map Prod.fst := mem_keys_of_lookupA hl
  unfold Searcher.search at hmem
  rcases searchFold_keys_mem s (termsOf q) [] d hmem with h1 | ⟨t, ht, hd⟩
  · simp at h1
  · exact ⟨t, ht, lookupA_isSome_of_mem_keys hd⟩

theorem search_only_matching_witness :
    Reach s1mem ∧ ∃ sc : ℝ, lookupA (s1mem.search "moon") "1" = some sc ∧
      ∃ t ∈ termsOf "moon", (lookupA (s1mem.index t) "1").isSome := by
  have hreach : Reach s1mem := Reach.step "1" "nice moon" rfl Reach.new
  exact ⟨hreach, _, rfl, search_only_matching _ hreach "moon" "1" _ rfl⟩

/-! ## Positivity of the BM25 ingredients -/

theorem idf_nonneg {s : Searcher} (hi : Inv s) (t : String) : 0 ≤ s.idf t := by
  unfold Searcher.idf
  apply Real.log_nonneg
  have hle : ((s.index t).length : ℝ) ≤ (s.docs.length : ℝ) := by
    exact_mod_cast index_card_le hi t
  have hpos : (0 : ℝ) < ((s.index t).length : ℝ) + 1/2 := by positivity
  have h1 : 0 ≤ ((s.docs.length : ℝ) - ((s.index t).length : ℝ) + 1/2) /
      (((s.index t).length : ℝ) + 1/2) :=
    div_nonneg (by linarith) (le_of_lt hpos)
  linarith

theorem idf_pos {s : Searcher} (hi : Inv s) (t : String) (hne : s.index t ≠ []) :
    0 < s.idf t := by
  unfold Searcher.idf
  apply Real.log_pos
  have hlen : 1 ≤ (s.index t).length := List.length_pos.mpr hne
  have hle : ((s.index t).length : ℝ) ≤ (s.docs.length : ℝ) := by
    exact_mod_cast index_card_le hi t
  have hnum : (0 : ℝ) < (s.docs.length : ℝ) - ((s.index t).length : ℝ) + 1/2 := by linarith
  have hden : (0 : ℝ) < ((s.index t).length : ℝ) + 1/2 := by positivity
  have := div_pos hnum hden
  linarith

theorem denom_pos {s : Searcher} (hi : Inv s) (dl : Nat) :
    0 < (s.k1 : ℝ) * ((1 - (s.b : ℝ)) + (s.b : ℝ) * ((dl : ℝ) / ((s.avdl : ℚ) : ℝ))) := by
  have h1 : (0 : ℝ) ≤ (dl : ℝ) / ((s.avdl : ℚ) : ℝ) := by
    apply div_nonneg (by positivity)
    exact_mod_cast hi.avdl_nonneg
  rw [hi.k1_eq, hi.b_eq]
  push_cast
  nlinarith

/-! ## C7: BM25 monotone in raw term frequency -/

/-- C7: holding the corpus (hence `idf` and `avdl`) and the document length
`dl` fixed, the per-document BM25 score of a term is monotonically
non-decreasing in the raw term frequency. -/
theorem bm25_monotone_tf (s : Searcher) (h : Reach s) (t : String) (dl tf1 tf2 : Nat)
    (hle : tf1 ≤ tf2) : s.bm25Score t tf1 dl ≤ s.bm25Score t tf2 dl := by
  have hi := reach_inv h
  have hidf := idf_nonneg hi t
  have hden := denom_pos hi dl
  unfold Searcher.bm25Score
  apply (div_le_div_iff_of_pos_right hden).mpr
  apply mul_le_mul_of_nonneg_left _ hidf
  have hk : (0 : ℝ) ≤ (s.k1 : ℝ) + 1 := by
    rw [hi.k1_eq]; norm_num
  exact mul_le_mul_of_nonneg_right (by exact_mod_cast hle) hk

theorem bm25_monotone_tf_witness :
    Reach s1mem ∧ 1 ≤ 2 ∧ s1mem.bm25Score "moon" 1 2 ≤ s1mem.bm25Score "moon" 2 2 := by
  have hreach : Reach s1mem := Reach.step "1" "nice moon" rfl Reach.new
  exact ⟨hreach, by norm_num, bm25_monotone_tf _ hreach "moon" 2 1 2 (by norm_num)⟩

/-! ## C9: every returned search score is strictly positive -/

theorem bm25_entry_pos {s : Searcher} (hi : Inv s) (t : String) :
    ∀ p ∈ s.bm25 t, 0 < p.2 := by
  intro p hp
  unfold Searcher.bm25 at hp
  obtain ⟨⟨d, c⟩, hmem, rfl⟩ := List.mem_map.mp hp
  have hl : lookupA (s.index t) d = some c := lookupA_of_mem_nodup (hi.post_nodup t) hmem
  obtain ⟨hc, doc, hdoc, hn⟩ := hi.post t d c hl
  have hne : s.index t ≠ [] := by
    intro h0; rw [h0] at hmem; simp at hmem
  have hidf := idf_pos hi t hne
  have hden := denom_pos hi (((lookupA s.docs d).map Document.nterms).getD 0)
  unfold Searcher.bm25Score
  apply div_pos _ hden
  apply mul_pos hidf
  apply mul_pos
  · exact_mod_cast hc
  · rw [hi.k1_eq]; norm_num

theorem addScore_all_pos (d : String) (sc : ℝ) (hsc : 0 < sc) :
    ∀ acc : List (String × ℝ), (∀ p ∈ acc, 0 < p.2) →
      ∀ p ∈ addScore acc d sc, 0 < p.2 := by
  intro acc
  induction acc with
  | nil =>
      intro _ p hp
      simp only [addScore, List.mem_singleton] at hp
      rw [hp]
      exact hsc
  | cons q rest ih =>
      obtain ⟨i, v⟩ := q
      intro ha p hp
      by_cases hid : i = d
      · simp only [addScore, if_pos hid, List.mem_cons] at hp
        rcases hp with rfl | hp
        · have hv : 0 < v := ha (i, v) (by simp)
          exact add_pos hv hsc
        · exact ha p (List.mem_cons_of_mem _ hp)
      · simp only [addScore, if_neg hid, List.mem_cons] at hp
        rcases hp with rfl | hp
        · exact ha (i, v) (by simp)
        · exact ih (fun r hr => ha r (List.mem_cons_of_mem _ hr)) p hp

theorem foldScores_all_pos (l : List (String × ℝ)) (hl : ∀ p ∈ l, 0 < p.2) :
    ∀ acc : List (String × ℝ), (∀ p ∈ acc, 0 < p.2) →
      ∀ p ∈ l.foldl (fun a p => addScore a p.1 p.2) acc, 0 < p.2 := by
  induction l with
  | nil => intro acc ha p hp; exact ha p hp
  | cons q rest ih =>
      intro acc ha p hp
      simp only [List.foldl_cons] at hp
      exact ih (fun r hr => hl r (List.mem_cons_of_mem _ hr)) _
        (addScore_all_pos _ _ (hl q (by simp)) acc ha) p hp

theorem searchFold_all_pos (s : Searcher) (hi : Inv s) (ts : List String) :
    ∀ acc : List (String × ℝ), (∀ p ∈ acc, 0 < p.2) →
      ∀ p ∈ ts.foldl
        (fun acc term => (s.bm25 term).foldl (fun a p => addScore a p.1 p.2) acc) acc,
        0 < p.2 := by
  induction ts with
  | nil => intro acc ha p hp; exact ha p hp
  | cons a rest ih =>
      intro acc ha p hp
      simp only [List.foldl_cons] at hp
      exact ih _ (foldScores_all_pos _ (bm25_entry_pos hi a) acc ha) p hp

/-- C9: every `(doc_id, score)` pair returned by the in-memory `search` on
a reachable state has a strictly positive score — the smoothed IDF of any
indexed term is strictly positive, `tf ≥ 1`, and the BM25 denominator is
strictly positive (real-number model of the `f32` arithmetic). -/
theorem search_scores_pos (s : Searcher) (h : Reach s) (q d : String) (sc : ℝ)
    (hl : lookupA (s.search q) d = some sc) : 0 < sc := by
  have hi := reach_inv h
  have hmem : (d, sc) ∈ s.search q := mem_of_lookupA hl
  unfold Searcher.search at hmem
  exact searchFold_all_pos s hi (termsOf q) [] (by simp) (d, sc) hmem

theorem search_scores_pos_witness :
    Reach s1mem ∧ ∃ sc : ℝ, lookupA (s1mem.search "moon") "1" = some sc ∧ 0 < sc := by
  have hreach : Reach s1mem := Reach.step "1" "nice moon" rfl Reach.new
  exact ⟨hreach, _, rfl, search_scores_pos _ hreach "moon" "1" _ rfl⟩

/-! ## C8: normalization idempotence -/

theorem toLower_eq_self {c : Char} (h : c.toNat < 65 ∨ 90 < c.toNat) :
    c.toLower = c := by
  unfold Char.toLower
  rw [if_neg]
  omega

/-- A lowercase ASCII letter or digit, as the idempotence claim ranges
over. -/
def lowerAlnum (c : Char) : Prop :=
  ('a' ≤ c ∧ c ≤ 'z') ∨ ('0' ≤ c ∧ c ≤ '9')

theorem lowerAlnum_toNat {c : Char} (h : lowerAlnum c) :
    (97 ≤ c.toNat ∧ c.toNat ≤ 122) ∨ (48 ≤ c.toNat ∧ c.toNat ≤ 57) := by
  rcases h with ⟨h1, h2⟩ | ⟨h1, h2⟩
  · left; exact ⟨h1, h2⟩
  · right; exact ⟨h1, h2⟩

theorem lowerAlnum_toLower {c : Char} (h : lowerAlnum c) : c.toLower = c := by
  apply toLower_eq_self
  rcases lowerAlnum_toNat h with ⟨h1, _⟩ | ⟨_, h2⟩
  · right; omega
  · left; omega

theorem lowerAlnum_allowed {c : Char} (h : lowerAlnum c) : allowedMem c = true := by
  simp only [allowedMem, Bool.or_eq_true, Bool.and_eq_true, decide_eq_true_eq]
  rcases h with h | h
  · left; left; exact ⟨by exact_mod_cast h.1, by exact_mod_cast h.2⟩
  · left; right; exact ⟨by exact_mod_cast h.1, by exact_mod_cast h.2⟩

theorem lowerAlnum_ne_space {c : Char} (h : lowerAlnum c) : c ≠ ' ' := by
  intro hc
  subst hc
  have h32 : (' ' : Char).toNat = 32 := rfl
  rcases lowerAlnum_toNat h with ⟨h1, _⟩ | ⟨h1, _⟩ <;> omega

theorem space_toLower : (' ' : Char).toLower = ' ' :=
  toLower_eq_self (by left; decide)

theorem mem_intercalate_space {c : Char} {ls : List (List Char)}
    (h : c ∈ List.intercalate [' '] ls) : c = ' ' ∨ ∃ w ∈ ls, c ∈ w := by
  induction ls with
  | nil => simp [List.intercalate] at h
  | cons w rest ih =>
      cases rest with
      | nil =>
          simp [List.intercalate] at h
          exact Or.inr ⟨w, by simp, h⟩
      | cons w2 rest2 =>
          have hsplit : List.intercalate [' '] (w :: w2 :: rest2) =
              w ++ ' ' :: List.intercalate [' '] (w2 :: rest2) := by
            simp [List.intercalate]
          rw [hsplit] at h
          rcases List.mem_append.mp h with h1 | h1
          · exact Or.inr ⟨w, by simp, h1⟩
          · rcases List.mem_cons.mp h1 with h2 | h2
            · exact Or.inl h2
            · rcases ih h2 with h3 | ⟨w3, hw3, hc3⟩
              · exact Or.inl h3
              · exact Or.inr ⟨w3, by simp [hw3], hc3⟩

theorem cleanMem_fixed (s : String)
    (h : ∀ c ∈ s.toList, lowerAlnum c ∨ c = ' ') : cleanMem s = s.toList := by
  unfold cleanMem
  have h1 : s.toList.map Char.toLower = s.toList := by
    conv_rhs => rw [← List.map_id s.toList]
    apply List.map_congr_left
    intro c hc
    rcases h c hc with hc1 | hc1
    · rw [lowerAlnum_toLower hc1]; rfl
    · rw [hc1, space_toLower]; rfl
  rw [h1]
  conv_rhs => rw [← List.map_id s.toList]
  apply List.map_congr_left
  intro c hc
  rcases h c hc with hc1 | hc1
  · rw [if_pos (lowerAlnum_allowed hc1)]; rfl
  · rw [hc1]
    rw [if_pos (by decide : allowedMem ' ' = true)]
    rfl

theorem wordsAux_no_space (w : List Char) (hw : ∀ c ∈ w, c ≠ ' ') :
    ∀ (l acc : List Char), wordsAux (w ++ l) acc = wordsAux l (w.reverse ++ acc) := by
  induction w with
  | nil => intro l acc; rfl
  | cons c w' ih =>
      intro l acc
      have hc : c ≠ ' ' := hw c (by simp)
      have hw' : ∀ cd ∈ w', cd ≠ ' ' := fun cd hcd => hw cd (by simp [hcd])
      rw [List.cons_append, wordsAux, if_neg hc, ih hw' l (c :: acc)]
      simp

instance : DecidablePred lowerAlnum := fun c =>
  inferInstanceAs (Decidable (('a' ≤ c ∧ c ≤ 'z') ∨ ('0' ≤ c ∧ c ≤ '9')))

theorem words_intercalate (ts : List (List Char))
    (h : ∀ w ∈ ts, w ≠ [] ∧ ∀ c ∈ w, c ≠ ' ') :
    words (List.intercalate [' '] ts) = ts := by
  induction ts with
  | nil => simp [words, List.intercalate, wordsAux]
  | cons w rest ih =>
      cases rest with
      | nil =>
          obtain ⟨hne, hns⟩ := h w (by simp)
          have h1 : List.intercalate [' '] [w] = w := by simp [List.intercalate]
          rw [h1]
          unfold words
          have h2 := wordsAux_no_space w hns [] []
          rw [List.append_nil] at h2
          rw [h2]
          simp [wordsAux, hne]
      | cons w2 rest2 =>
          obtain ⟨hne, hns⟩ := h w (by simp)
          have ih' := ih (fun u hu => h u (by simp [hu]))
          have hsplit : List.intercalate [' '] (w :: w2 :: rest2) =
              w ++ ' ' :: List.intercalate [' '] (w2 :: rest2) := by
            simp [List.intercalate]
          rw [hsplit]
          unfold words
          rw [wordsAux_no_space w hns (' ' :: List.intercalate [' '] (w2 :: rest2)) []]
          simp only [List.append_nil]
          rw [wordsAux, if_pos rfl,
            if_neg (by simpa using hne : ¬ w.reverse = []),
            List.reverse_reverse]
          unfold words at ih'
          rw [ih']

/-- C8 as stated fails: `"hello"` consists only of lowercase letters, yet
normalizing the joined sequence `["hello"]` drops it, because `hello` is in
the stop-word list (as the repository's own `test_normalize_string` pins). -/
theorem normalize_idem_counterexample :
    (∀ c ∈ "hello".toList, lowerAlnum c) ∧
      normalizeTermsMem (joinSpace ["hello"]) ≠ ["hello"] := by
  constructor
  · decide
  · decide

/-- C8 amended: for every sequence of nonempty terms consisting only of
lowercase alphanumeric characters, none of which is a stop word, joining
the terms with spaces and normalizing the result yields the same term
sequence back.  (The claim as frozen fails on stop words — see the
counterexample — and on empty terms, which vanish when split.) -/
theorem normalize_idempotent_amended (ts : List String)
    (h : ∀ t ∈ ts, t ≠ "" ∧ (∀ c ∈ t.toList, lowerAlnum c) ∧ ¬ t ∈ stopWordsEng) :
    normalizeTermsMem (joinSpace ts) = ts := by
  unfold normalizeTermsMem
  have hclean : cleanMem (joinSpace ts) = (joinSpace ts).toList := by
    apply cleanMem_fixed
    intro c hc
    have heq : (joinSpace ts).toList = List.intercalate [' '] (ts.map String.toList) := rfl
    rw [heq] at hc
    rcases mem_intercalate_space hc with h1 | ⟨w, hw, hcw⟩
    · right; exact h1
    · obtain ⟨t, ht, rfl⟩ := List.mem_map.mp hw
      left; exact (h t ht).2.1 c hcw
  rw [hclean]
  have hwords : words ((joinSpace ts).toList) = ts.map String.toList := by
    show words (List.intercalate [' '] (ts.map String.toList)) = _
    apply words_intercalate
    intro w hw
    obtain ⟨t, ht, rfl⟩ := List.mem_map.mp hw
    obtain ⟨hne, hla, _⟩ := h t ht
    constructor
    · intro h0
      apply hne
      calc t = String.mk t.toList := rfl
        _ = String.mk [] := by rw [h0]
        _ = "" := rfl
    · intro c hc
      exact lowerAlnum_ne_space (hla c hc)
  rw [hwords]
  have hmk : (ts.map String.toList).map (fun l => String.mk l) = ts := by
    rw [List.map_map]
    conv_rhs => rw [← List.map_id ts]
    apply List.map_congr_left
    intro t ht
    rfl
  rw [hmk]
  apply List.filter_eq_self.mpr
  intro t ht
  simpa using (h t ht).2.2

theorem normalize_idempotent_amended_witness :
    (∀ t ∈ ["nice", "42"],
        t ≠ "" ∧ (∀ c ∈ t.toList, lowerAlnum c) ∧ ¬ t ∈ stopWordsEng) ∧
      normalizeTermsMem (joinSpace ["nice", "42"]) = ["nice", "42"] :=
  ⟨by decide, normalize_idempotent_amended _ (by decide)⟩

/-! ## C5: persisted per-term weights form a frequency distribution -/

theorem lookupA_bumpR_self (l : List (String × ℝ)) (d : String) :
    lookupA (bumpR l d) d = some ((lookupA l d).getD 0 + 1) := by
  induction l with
  | nil => simp [bumpR, lookupA]
  | cons p rest ih =>
      obtain ⟨i, c⟩ := p
      by_cases hid : i = d <;> simp [bumpR, lookupA, hid, ih]

theorem lookupA_bumpR_ne (l : List (String × ℝ)) {d u : String} (h : u ≠ d) :
    lookupA (bumpR l d) u = lookupA l u := by
  induction l with
  | nil => simp [bumpR, lookupA, Ne.symm h]
  | cons p rest ih =>
      obtain ⟨i, c⟩ := p
      by_cases hid : i = d
      · subst hid; simp [bumpR, lookupA, Ne.symm h]
      · by_cases hiu : i = u <;> simp [bumpR, lookupA, hid, hiu, h, ih]

theorem keys_bumpR (l : List (String × ℝ)) (d : String) :
    (bumpR l d).map Prod.fst = l.map Prod.fst ∨
      (¬ d ∈ l.map Prod.fst ∧ (bumpR l d).map Prod.fst = l.map Prod.fst ++ [d]) := by
  induction l with
  | nil => right; simp [bumpR]
  | cons p rest ih =>
      obtain ⟨i, c⟩ := p
      by_cases hid : i = d
      · left; simp [bumpR, hid]
      · rcases ih with h | ⟨h1, h2⟩
        · left; simp [bumpR, hid, h]
        · right
          refine ⟨?_, by simp [bumpR, hid, h2]⟩
          simp [hid, h1, Ne.symm]

theorem sum_bumpR (l : List (String × ℝ)) (d : String) :
    ((bumpR l d).map Prod.snd).sum = (l.map Prod.snd).sum + 1 := by
  induction l with
  | nil => simp [bumpR]
  | cons p rest ih =>
      obtain ⟨i, c⟩ := p
      by_cases hid : i = d
      · simp [bumpR, hid]; ring
      · simp [bumpR, hid, ih]; ring

theorem countsFold_lookup (ws : List String) :
    ∀ (m : List (String × ℝ)) (u : String),
      lookupA (ws.foldl bumpR m) u =
        if ws.count u = 0 then lookupA m u
        else some ((lookupA m u).getD 0 + (ws.count u : ℝ)) := by
  induction ws with
  | nil => intro m u; simp
  | cons a rest ih =>
      intro m u
      rw [List.foldl_cons, ih]
      by_cases hua : u = a
      · subst hua
        have hc : (u :: rest).count u = rest.count u + 1 := by simp [List.count_cons]
        rw [hc, lookupA_bumpR_self]
        by_cases h0 : rest.count u = 0 <;>
          (simp [h0]; try ring)
      · have hc : (a :: rest).count u = rest.count u := by
          simp [List.count_cons, hua]
        rw [hc, lookupA_bumpR_ne _ hua]

theorem countsFold_sum (ws : List String) :
    ∀ m : List (String × ℝ),
      (((ws.foldl bumpR m).map Prod.snd).sum) = ((m.map Prod.snd).sum) + (ws.length : ℝ) := by
  induction ws with
  | nil => intro m; simp
  | cons a rest ih =>
      intro m
      rw [List.foldl_cons, ih, sum_bumpR]
      push_cast [List.length_cons]
      ring

theorem countsFold_keys_nodup (ws : List String) :
    ∀ m : List (String × ℝ), (m.map Prod.fst).Nodup →
      ((ws.foldl bumpR m).map Prod.fst).Nodup := by
  induction ws with
  | nil => intro m hm; exact hm
  | cons a rest ih =>
      intro m hm
      rw [List.foldl_cons]
      apply ih
      rcases keys_bumpR m a with h | ⟨h1, h2⟩
      · rw [h]; exact hm
      · rw [h2, List.nodup_append]
        exact ⟨hm, List.nodup_singleton _, by simpa using h1⟩

/-- C5: for every content string with at least one surviving term, the
per-term weights computed by `get_index_keys(content, true)` assign each
distinct term its occurrence count divided by the total number of surviving
occurrences, and hence sum to 1 over the document's terms (exact real model
of the `f32` arithmetic). -/
theorem getIndexKeys_tf_weights (content : String)
    (h : normalizeWordsP content ≠ []) :
    (∀ p ∈ getIndexKeys content true,
        p.2 = (((normalizeWordsP content).count p.1 : ℝ)) /
          ((normalizeWordsP content).length : ℝ)) ∧
      ((getIndexKeys content true).map Prod.snd).sum = 1 := by
  have hsum : ((countsOf (normalizeWordsP content)).map Prod.snd).sum =
      ((normalizeWordsP content).length : ℝ) := by
    have := countsFold_sum (normalizeWordsP content) []
    simpa [countsOf] using this
  have hlenpos : 0 < (normalizeWordsP content).length := List.length_pos.mpr h
  have hlr : (((normalizeWordsP content).length : ℝ)) ≠ 0 :=
    ne_of_gt (by exact_mod_cast hlenpos)
  have hif : getIndexKeys content true =
      (countsOf (normalizeWordsP content)).map
        (fun p => (p.1, p.2 / ((countsOf (normalizeWordsP content)).map Prod.snd).sum)) := by
    unfold getIndexKeys
    rw [if_neg (by decide)]
  constructor
  · intro p hp
    rw [hif] at hp
    obtain ⟨⟨w, c⟩, hmem, rfl⟩ := List.mem_map.mp hp
    have hnd : ((countsOf (normalizeWordsP content)).map Prod.fst).Nodup :=
      countsFold_keys_nodup _ [] (by simp)
    have hl : lookupA (countsOf (normalizeWordsP content)) w = some c :=
      lookupA_of_mem_nodup hnd hmem
    rw [show countsOf (normalizeWordsP content) = (normalizeWordsP content).foldl bumpR []
      from rfl, countsFold_lookup] at hl
    by_cases h0 : (normalizeWordsP content).count w = 0
    · rw [if_pos h0] at hl
      simp [lookupA] at hl
    · rw [if_neg h0] at hl
      simp only [lookupA, Option.getD_none, zero_add, Option.some.injEq] at hl
      simp only [hsum, ← hl]
  · rw [hif, List.map_map]
    have hmap : (Prod.snd ∘ fun p : String × ℝ =>
        (p.1, p.2 / ((countsOf (normalizeWordsP content)).map Prod.snd).sum)) =
        fun p : String × ℝ =>
          p.2 / ((countsOf (normalizeWordsP content)).map Prod.snd).sum := rfl
    rw [hmap]
    have hdiv : ((countsOf (normalizeWordsP content)).map
        (fun p : String × ℝ =>
          p.2 / ((countsOf (normalizeWordsP content)).map Prod.snd).sum)).sum =
        ((countsOf (normalizeWordsP content)).map Prod.snd).sum /
          ((countsOf (normalizeWordsP content)).map Prod.snd).sum := by
      simp only [div_eq_mul_inv]
      rw [List.sum_map_mul_right]
    rw [hdiv, hsum, div_self hlr]

theorem getIndexKeys_tf_weights_witness :
    normalizeWordsP "hello world" ≠ [] ∧
      (∀ p ∈ getIndexKeys "hello world" true,
          p.2 = (((normalizeWordsP "hello world").count p.1 : ℝ)) /
            ((normalizeWordsP "hello world").length : ℝ)) ∧
        ((getIndexKeys "hello world" true).map Prod.snd).sum = 1 :=
  ⟨by decide, (getIndexKeys_tf_weights "hello world" (by decide)).1,
    (getIndexKeys_tf_weights "hello world" (by decide)).2⟩

/-! ## Ordering and slicing lemmas for the persisted search -/

theorem length_insDesc (x : String × ℝ) (l : List (String × ℝ)) :
    (insDesc x l).length = l.length + 1 := by
  induction l with
  | nil => rfl
  | cons y rest ih =>
      unfold insDesc
      by_cases hc : y.2 < x.2 ∨ (y.2 = x.2 ∧ y.1 < x.1)
      · rw [if_pos hc]; simp
      · rw [if_neg hc]; simp [ih]

theorem length_sortDesc (l : List (String × ℝ)) : (sortDesc l).length = l.length := by
  induction l with
  | nil => rfl
  | cons y rest ih =>
      show (insDesc y (sortDesc rest)).length = rest.length + 1
      rw [length_insDesc, ih]

theorem mem_insDesc (a x : String × ℝ) (l : List (String × ℝ)) :
    a ∈ insDesc x l ↔ a = x ∨ a ∈ l := by
  induction l with
  | nil => simp [insDesc]
  | cons y rest ih =>
      unfold insDesc
      by_cases hc : y.2 < x.2 ∨ (y.2 = x.2 ∧ y.1 < x.1)
      · rw [if_pos hc]; simp
      · rw [if_neg hc]
        simp only [List.mem_cons, ih]
        tauto

theorem mem_sortDesc (a : String × ℝ) (l : List (String × ℝ)) :
    a ∈ sortDesc l ↔ a ∈ l := by
  induction l with
  | nil => simp [sortDesc]
  | cons y rest ih =>
      show a ∈ insDesc y (sortDesc rest) ↔ _
      rw [mem_insDesc]
      simp [ih]

theorem zrevrangeWS_all (l : List (String × ℝ)) (hne : l ≠ []) :
    zrevrangeWS l 0 (-1) = sortDesc l := by
  have hn : 0 < l.length := List.length_pos.mpr hne
  simp only [zrevrangeWS]
  norm_num
  rw [if_pos (by omega : 1 ≤ l.length), ← length_sortDesc l, List.take_length]

/-! ## C6: no positive IDF means empty result, not an error -/

/-- C6: if no normalized query term has a positive IDF — the query
normalizes to no terms, every term has document frequency 0, or every IDF
clamps to 0 — the persisted search returns the empty ranked list with 0
known matches and leaves the store untouched; the outcome is a normal
return (`some`), not an error, regardless of whether the store would have
faulted at the later range read. -/
theorem searchP_no_positive_idf (st : Redis) (pre q : String) (offset count : Nat)
    (suffix : String) (rf : Bool)
    (h : ∀ p ∈ queryIdfs st pre q, p.2 ≤ 0) :
    (searchP st pre q offset count suffix rf).result = some ([], 0) ∧
      (searchP st pre q offset count suffix rf).store = st := by
  unfold searchP
  by_cases hk : (queryKeysP pre q).isEmpty
  · rw [if_pos hk]
    exact ⟨rfl, rfl⟩
  · rw [if_neg hk]
    have hw : weightsOf st pre q = [] := by
      unfold weightsOf
      rw [List.filter_eq_nil_iff]
      intro p hp
      simpa using not_lt.mpr (h p hp)
    rw [if_pos (by rw [hw]; rfl)]
    exact ⟨rfl, rfl⟩

theorem searchP_no_positive_idf_witness :
    (∀ p ∈ queryIdfs stEmpty "p:" "hello", p.2 ≤ 0) ∧
      (searchP stEmpty "p:" "hello" 0 10 "x" false).result = some ([], 0) ∧
      (searchP stEmpty "p:" "hello" 0 10 "x" false).store = stEmpty := by
  have hq : ∀ p ∈ queryIdfs stEmpty "p:" "hello", p.2 ≤ 0 := by
    intro p hp
    have hk : queryKeysP "p:" "hello" = ["p:hello"] := by decide
    simp only [queryIdfs, hk, List.map_cons, List.map_nil, List.mem_singleton] at hp
    subst hp
    show idfOf _ _ ≤ 0
    norm_num [idfOf, Redis.scard, Redis.zcard, stEmpty]
  exact ⟨hq, (searchP_no_positive_idf stEmpty "p:" "hello" 0 10 "x" false hq).1,
    (searchP_no_positive_idf stEmpty "p:" "hello" 0 10 "x" false hq).2⟩

/-! ## C10: `count = 0, offset = 0` returns the whole result set -/

/-- C10: calling the persisted search with `count = 0` and `offset = 0` on
a query with at least one positive-IDF term does not return an empty slice:
the wrapping (release-mode) evaluation of `(offset + count - 1) as isize`
yields `-1`, Redis reads the range `[0, -1]` as the entire sorted set, and
every matching document (a member of some positive-IDF term's posting set)
is returned. -/
theorem searchP_count_zero_returns_all (st : Redis) (pre q suffix : String)
    (h : ∃ p ∈ queryIdfs st pre q, 0 < p.2) :
    ∃ ids known,
      (searchP st pre q 0 0 suffix false).result = some (ids, known) ∧
      ids = sortDesc (zunionW st (weightsOf st pre q)) ∧
      ids.length = known ∧ 0 < known ∧
      ∀ d : String, (∃ sc, (d, sc) ∈ ids) ↔
        (∃ p ∈ weightsOf st pre q, ∃ sc, (d, sc) ∈ st.zsets p.1) := by
  obtain ⟨p0, hp0, hpos⟩ := h
  have hk : ¬ (queryKeysP pre q).isEmpty := by
    intro he
    rw [List.isEmpty_iff] at he
    unfold queryIdfs at hp0
    rw [he] at hp0
    simp at hp0
  have hp0w : p0 ∈ weightsOf st pre q :=
    List.mem_filter.mpr ⟨hp0, by simpa using hpos⟩
  have hw : ¬ (weightsOf st pre q).isEmpty := by
    intro he
    rw [List.isEmpty_iff] at he
    rw [he] at hp0w
    simp at hp0w
  have hzne : st.zsets p0.1 ≠ [] := by
    intro h0
    unfold queryIdfs at hp0
    obtain ⟨k, hk2, heq⟩ := List.mem_map.mp hp0
    subst heq
    simp only at hpos h0
    rw [Redis.zcard, h0] at hpos
    norm_num [idfOf] at hpos
  have huz : zunionW st (weightsOf st pre q) ≠ [] := by
    intro h0
    unfold zunionW at h0
    rw [List.map_eq_nil_iff, List.dedup_eq_nil, List.flatten_eq_nil_iff] at h0
    have h2 : (st.zsets p0.1).map Prod.fst = [] :=
      h0 _ (List.mem_map.mpr ⟨p0, hp0w, rfl⟩)
    exact hzne (List.map_eq_nil_iff.mp h2)
  refine ⟨sortDesc (zunionW st (weightsOf st pre q)),
    (zunionW st (weightsOf st pre q)).length, ?_, rfl, length_sortDesc _,
    List.length_pos.mpr huz, ?_⟩
  · unfold searchP
    rw [if_neg hk, if_neg hw]
    simp only [Bool.false_eq_true, if_false]
    have hstart : toIsize (0 % 2 ^ 64) = 0 := by norm_num [toIsize]
    have hstop : toIsize ((0 + 0 + (2 ^ 64 - 1)) % 2 ^ 64) = -1 := by
      norm_num [toIsize]
    rw [hstart, hstop, zrevrangeWS_all _ huz]
  · intro d
    constructor
    · rintro ⟨sc, hmem⟩
      rw [mem_sortDesc] at hmem
      unfold zunionW at hmem
      obtain ⟨m, hm, heq⟩ := List.mem_map.mp hmem
      have hmd : m = d := congrArg Prod.fst heq
      subst hmd
      rw [List.mem_dedup] at hm
      obtain ⟨L, hL, hmL⟩ := List.mem_flatten.mp hm
      obtain ⟨p, hpw, rfl⟩ := List.mem_map.mp hL
      obtain ⟨⟨d2, sc2⟩, hd2, hd2e⟩ := List.mem_map.mp hmL
      refine ⟨p, hpw, sc2, ?_⟩
      simp only at hd2e
      rw [hd2e] at hd2
      exact hd2
    · rintro ⟨p, hpw, sc, hmem⟩
      have hdm : d ∈ ((weightsOf st pre q).map
          (fun p => (st.zsets p.1).map Prod.fst)).flatten :=
        List.mem_flatten.mpr ⟨(st.zsets p.1).map Prod.fst,
          List.mem_map.mpr ⟨p, hpw, rfl⟩, List.mem_map.mpr ⟨(d, sc), hmem, rfl⟩⟩
      refine ⟨((weightsOf st pre q).map
          (fun r => r.2 * ((lookupA (st.zsets r.1) d).getD 0))).sum, ?_⟩
      rw [mem_sortDesc]
      unfold zunionW
      exact List.mem_map.mpr ⟨d, List.mem_dedup.mpr hdm, rfl⟩

theorem idf_st10_pos :
    0 < idfOf ((st10.scard "p:indexed:" : ℝ)) ((st10.zcard "p:hello" : ℝ)) := by
  have h2 : st10.scard "p:indexed:" = 2 := rfl
  have h1 : st10.zcard "p:hello" = 1 := rfl
  rw [h2, h1]
  have hne : ((1 : ℕ) : ℝ) ≠ 0 := by norm_num
  rw [idfOf, if_neg hne]
  have hlogb : Real.logb 2 (((2 : ℕ) : ℝ) / ((1 : ℕ) : ℝ)) = 1 := by
    norm_num
  rw [hlogb]
  norm_num

theorem queryKeys_st10 : queryKeysP "p:" "hello" = ["p:hello"] := by decide

theorem weights_st10 : weightsOf st10 "p:" "hello" =
    [("p:hello", idfOf ((st10.scard "p:indexed:" : ℝ)) ((st10.zcard "p:hello" : ℝ)))] := by
  unfold weightsOf queryIdfs
  rw [queryKeys_st10]
  simp only [List.map_cons, List.map_nil]
  rw [List.filter_cons]
  have happ : ("p:" ++ "indexed:" : String) = "p:indexed:" := rfl
  rw [happ, decide_eq_true idf_st10_pos]
  rfl

theorem searchP_count_zero_returns_all_witness :
    (∃ p ∈ queryIdfs st10 "p:" "hello", 0 < p.2) ∧
      ∃ ids known,
        (searchP st10 "p:" "hello" 0 0 "x" false).result = some (ids, known) ∧
        ids = sortDesc (zunionW st10 (weightsOf st10 "p:" "hello")) ∧
        ids.length = known ∧ 0 < known ∧
        ∀ d : String, (∃ sc, (d, sc) ∈ ids) ↔
          (∃ p ∈ weightsOf st10 "p:" "hello", ∃ sc, (d, sc) ∈ st10.zsets p.1) := by
  have hq : ∃ p ∈ queryIdfs st10 "p:" "hello", 0 < p.2 := by
    refine ⟨("p:hello", idfOf ((st10.scard "p:indexed:" : ℝ)) ((st10.zcard "p:hello" : ℝ))),
      ?_, idf_st10_pos⟩
    unfold queryIdfs
    rw [queryKeys_st10]
    simp
  exact ⟨hq, searchP_count_zero_returns_all st10 "p:" "hello" "x" hq⟩

/-! ## C4: the ephemeral aggregation key leaks on a store fault -/

/-- C4 fails on the code: when the external store faults at the
`zrevrange_withscores` call between the union and the deletion, the
`.unwrap()` panics and `DEL` is never issued, so the ephemeral aggregation
key survives the call.  This theorem evaluates the model at such a failing
execution: the search exits abnormally (`result = none`) while the
ephemeral key `p:temp:x` is still present in the final store state. -/
theorem searchP_fault_leaks_temp_key :
    (searchP st10 "p:" "hello" 0 10 "x" true).result = none ∧
      (searchP st10 "p:" "hello" 0 10 "x" true).store.zsets "p:temp:x" ≠ [] := by
  have hk : ¬ (queryKeysP "p:" "hello").isEmpty := by
    rw [queryKeys_st10]; decide
  have hw : ¬ (weightsOf st10 "p:" "hello").isEmpty := by
    rw [weights_st10]; decide
  unfold searchP
  rw [if_neg hk, if_neg hw, if_pos rfl]
  constructor
  · rfl
  · have happ : ("p:" ++ "temp:" ++ "x" : String) = "p:temp:x" := rfl
    show (if ("p:temp:x" : String) = "p:" ++ "temp:" ++ "x"
        then zunionW st10 (weightsOf st10 "p:" "hello")
        else st10.zsets "p:temp:x") ≠ []
    rw [happ, if_pos rfl, weights_st10]
    unfold zunionW
    simp [st10]

end PMSE
